import Mathlib

/-!
Verification of the radomsko password-store core: a shallow embedding of
`src/password_store.rs`, `src/cleartext_holder.rs`, `src/errors.rs` and the
`show` command of `src/main.rs`, together with proofs about path resolution,
store-root containment, tree walking/rendering, and staging-directory
permission checks.

The on-disk filesystem is modelled as a finite map from absolute paths
(component lists) to nodes (directory, regular file, or symbolic link), and
`std::fs::canonicalize` is modelled as fuel-bounded POSIX-style resolution
that follows symlinks and `..` segments and requires every component to
exist.  Rust `Path`/`PathBuf` operations (`push`, `extension`,
`set_extension`, `set_file_name`, `file_name`, `strip_prefix`,
`starts_with`) are modelled component-wise, mirroring Rust's parsing rules
(empty and `.` chunks are dropped; the extension of a file name is the part
after the last dot, except that a lone leading dot does not start an
extension).  Symbolic names are treated as relative paths, as in every call
site of the repository.
-/

namespace Radomsko

/-- One parsed path component, as produced by Rust `Path::components()`:
either a `..` (ParentDir) component or a normal name. `.` and empty chunks
are dropped during parsing. -/
inductive Component
  | parentDir
  | normal (s : String)
deriving DecidableEq, Repr

/-- A filesystem node: directory, regular file, or symbolic link.  A link
target is a component list, either absolute or relative to the link's
parent directory. -/
inductive FsNode
  | dir
  | file
  | symlink (absoluteTarget : Bool) (target : List Component)
deriving DecidableEq, Repr

/-- A filesystem: a finite association of absolute canonical paths
(component-name lists, `[]` being `/`) to nodes. -/
structure Fs where
  nodes : List (List String × FsNode)
deriving DecidableEq, Repr

/-- Node lookup.  The filesystem root `/` is always a directory. -/
def nodeAt (fs : Fs) (p : List String) : Option FsNode :=
  if p = [] then some FsNode.dir
  else (fs.nodes.find? (fun e => decide (e.1 = p))).map (fun e => e.2)

/-- `RadomskoError` from `src/errors.rs`.  `IoError` carries the
stringified OS error (`From<std::io::Error>`); a missing
`XDG_RUNTIME_DIR` maps to `NotFound` (`From<std::env::VarError>`). -/
inductive RadomskoError
  | notFound
  | badPermissions
  | ioError (msg : String)
  | subprocessError (msg : String)
deriving DecidableEq, Repr

instance {ε α : Type} [DecidableEq ε] [DecidableEq α] : DecidableEq (Except ε α) := fun a b =>
  match a, b with
  | Except.ok x, Except.ok y =>
    match decEq x y with
    | isTrue h => isTrue (congrArg Except.ok h)
    | isFalse h => isFalse (fun hh => h (Except.ok.inj hh))
  | Except.error x, Except.error y =>
    match decEq x y with
    | isTrue h => isTrue (congrArg Except.error h)
    | isFalse h => isFalse (fun hh => h (Except.error.inj hh))
  | Except.ok _, Except.error _ => isFalse (fun hh => Except.noConfusion hh)
  | Except.error _, Except.ok _ => isFalse (fun hh => Except.noConfusion hh)

/-- Split a character list at `/` separators (chunks may be empty). -/
def splitSlash : List Char → List (List Char)
  | [] => [[]]
  | c :: rest =>
    match splitSlash rest with
    | [] => [[]]
    | g :: gs => if c = '/' then [] :: g :: gs else (c :: g) :: gs

/-- Parse a relative path string into components, Rust-style: split on
`/`, drop empty and `.` chunks, keep `..` as ParentDir. -/
def parseRel (s : String) : List Component :=
  (((splitSlash s.data).map (fun cs => String.mk cs)).filter
      (fun t => decide (t ≠ "" ∧ t ≠ "."))).map
    (fun t => if t = ".." then Component.parentDir else Component.normal t)

/-- Split a character list at its LAST dot: `some (stem, ext)` where the
input is `stem ++ '.' :: ext`, or `none` if there is no dot. -/
def lastDotSplit : List Char → Option (List Char × List Char)
  | [] => none
  | c :: cs =>
    match lastDotSplit cs with
    | some (st, ex) => some (c :: st, ex)
    | none => if c = '.' then some ([], cs) else none

/-- Rust `Path::extension()` on a file name: the part after the last dot,
where a dot in the very first position does not count (so `.bashrc` has no
extension). -/
def rustExtension (s : String) : Option String :=
  match s.data with
  | [] => none
  | _ :: cs => (lastDotSplit cs).map (fun pr => String.mk pr.2)

/-- Rust `Path::file_stem()` (as characters): everything before the last
dot, where a dot in the very first position belongs to the stem. -/
def rustStemChars (s : String) : List Char :=
  match s.data with
  | [] => []
  | c :: cs =>
    match lastDotSplit cs with
    | some (st, _) => c :: st
    | none => c :: cs

/-- Rust `PathBuf::set_extension` applied to a single file name: replaces
(or removes, for `e = ""`) the current extension. -/
def rustSetExtension (s e : String) : String :=
  if e = "" then String.mk (rustStemChars s)
  else String.mk (rustStemChars s ++ '.' :: e.data)

/-- The extension marker (`GPG_EXTENSION` in `src/password_store.rs`). -/
def gpgExtension : String := "gpg"

/-- The file-name transformation of `path_for_impl` when
`add_gpg_extension` is set: if the name already has a perceived extension,
append `.gpg` to the whole file name (`set_file_name`), otherwise
`set_extension("gpg")`. -/
def gpgAdd (s : String) : String :=
  if (rustExtension s).isSome then s ++ "." ++ gpgExtension
  else rustSetExtension s gpgExtension

/-- Apply `gpgAdd` to the file name (last normal component) of a composed
path; a path whose last component is `..` (or an empty path) has no file
name and is left unchanged, as `set_extension` then returns false. -/
def addGpg (comps : List Component) : List Component :=
  match comps.getLast? with
  | some (Component.normal s) => comps.dropLast ++ [Component.normal (gpgAdd s)]
  | _ => comps

/-- `name.set_extension(e)` on a whole relative path: acts on the last
component if any. -/
def setExtensionPath (p : List String) (e : String) : List String :=
  match p.getLast? with
  | some s => p.dropLast ++ [rustSetExtension s e]
  | none => p

/-- `PasswordStoreInterface::symbolic_name_for`: strip the store-root
prefix and remove the extension.  The Rust function asserts that
`password_path` starts with `root`; every call site satisfies this, and the
theorems below only use it on such paths. -/
def symbolicNameFor (root : List String) (p : List String) : List String :=
  setExtensionPath (p.drop root.length) ""

/-- Fuel bound for symlink resolution (the OS bounds link chains; any
bound large enough for the store depth is faithful). -/
def resolveFuel : Nat := 64

/-- POSIX-style path resolution: walk components left to right, resolving
symlinks through their targets and `..` lexically on the already-resolved
prefix, requiring every visited component to exist.  Models
`std::fs::canonicalize`. -/
def resolve (fs : Fs) : Nat → List String → List Component → Option (List String)
  | 0, _, _ => none
  | _ + 1, cur, [] => some cur
  | fuel + 1, cur, Component.parentDir :: rest => resolve fs fuel cur.dropLast rest
  | fuel + 1, cur, Component.normal n :: rest =>
    match nodeAt fs (cur ++ [n]) with
    | none => none
    | some FsNode.dir => resolve fs fuel (cur ++ [n]) rest
    | some FsNode.file => match rest with | [] => some (cur ++ [n]) | _ => none
    | some (FsNode.symlink abs target) =>
      match resolve fs fuel (if abs then [] else cur) target with
      | none => none
      | some q => resolve fs fuel q rest

/-- `std::fs::canonicalize` of an absolute component path. -/
def canonicalize (fs : Fs) (p : List Component) : Option (List String) :=
  resolve fs resolveFuel [] p

/-- Rust `Path::starts_with`: component-wise prefix test. -/
def startsWithPath : List String → List String → Bool
  | [], _ => true
  | _ :: _, [] => false
  | r :: rs, q :: qs => if r = q then startsWithPath rs qs else false

/-- Well-formedness of a modelled filesystem: every proper prefix of a
recorded path is a directory (so every entry is reachable by directory
traversal). -/
def wfCheck (fs : Fs) : Bool :=
  (fs.nodes.map Prod.fst).all fun p =>
    (List.range p.length).all fun i => decide (nodeAt fs (p.take i) = some FsNode.dir)

/-- `pat` begins `s` (character-wise). -/
def listStartsWith : List Char → List Char → Bool
  | [], _ => true
  | _ :: _, [] => false
  | p :: ps, c :: cs => if p = c then listStartsWith ps cs else false

/-- Rust `str::ends_with`. -/
def strEndsWith (s pat : String) : Bool :=
  listStartsWith pat.data.reverse s.data.reverse

/-- Rust `str::contains` (plain substring containment). -/
def strContains (s pat : String) : Bool :=
  s.data.tails.any fun t => listStartsWith pat.data t

/-- Characters of a relative path rendered with `/` separators. -/
def relToChars (p : List String) : List Char :=
  List.intercalate ['/'] (p.map String.data)

/-- `Path::to_str` of a relative path (as a symbolic name is shown). -/
def relToString (p : List String) : String := String.mk (relToChars p)

/-- `Path::to_str`/`display` of an absolute path. -/
def pathToString (p : List String) : String := String.mk ('/' :: relToChars p)

/-- `Vec::join("\n")`. -/
def joinNl (lines : List String) : String :=
  String.mk (List.intercalate ['\n'] (lines.map String.data))

/-- Message of the `IoError` produced when `canonicalize` fails
(`result.canonicalize()?`). -/
def canonFailMessage : String := "No such file or directory"

/-- `PasswordStoreInterface::path_for_impl`: compose root and relative
path, optionally apply the extension marker, canonicalize, and reject
canonical results that do not start with the store root. -/
def pathForImpl (fs : Fs) (root : List String) (path : String) (addExt : Bool) :
    Except RadomskoError (List String) :=
  match canonicalize fs (if addExt then addGpg (root.map Component.normal ++ parseRel path)
                         else root.map Component.normal ++ parseRel path) with
  | none => Except.error (RadomskoError.ioError canonFailMessage)
  | some canonical =>
    if startsWithPath root canonical then Except.ok canonical
    else Except.error (RadomskoError.ioError ("bad path: " ++ pathToString canonical))

/-- `PasswordStoreInterface::path_for`. -/
def pathFor (fs : Fs) (root : List String) (password : String) :
    Except RadomskoError (List String) :=
  pathForImpl fs root password true

/-- Rust `Path::is_file` (follows symlinks; any resolution failure is
`false`). -/
def isFile (fs : Fs) (p : List String) : Bool :=
  match canonicalize fs (p.map Component.normal) with
  | some c => decide (nodeAt fs c = some FsNode.file)
  | none => false

/-- Rust `Path::is_dir` (follows symlinks; any resolution failure is
`false`). -/
def isDirAt (fs : Fs) (p : List String) : Bool :=
  match canonicalize fs (p.map Component.normal) with
  | some c => decide (nodeAt fs c = some FsNode.dir)
  | none => false

/-- `is_gpg_file` from `src/password_store.rs`: a regular file whose path
string ends with `GPG_EXTENSION` (note: `"gpg"`, with no dot). -/
def isGpgFile (fs : Fs) (p : List String) : Bool :=
  isFile fs p && strEndsWith (pathToString p) gpgExtension

/-- `walkdir::WalkDir::new(start)` over the modelled filesystem: every
recorded path lying under `start` (symlinked subtrees are not followed;
their entries are recorded under their real paths only). -/
def walkPaths (fs : Fs) (start : List String) : List (List String) :=
  (fs.nodes.map Prod.fst).filter fun q => startsWithPath start q

/-- Codepoint comparison of characters (Rust compares `OsStr` bytes;
on the ASCII names used throughout this is the same order). -/
def charLtB (a b : Char) : Bool := decide (a.val.toNat < b.val.toNat)

/-- Strict lexicographic comparison of character sequences. -/
def strLtB : List Char → List Char → Bool
  | [], [] => false
  | [], _ :: _ => true
  | _ :: _, [] => false
  | a :: as, b :: bs => if a = b then strLtB as bs else charLtB a b

/-- `Ord` on `PathBuf`: lexicographic on components, components compared
as character sequences. -/
def pathLe : List String → List String → Bool
  | [], _ => true
  | _ :: _, [] => false
  | a :: as, b :: bs => if a = b then pathLe as bs else strLtB a.data b.data

/-- Insert a path into a sorted list of paths. -/
def insertSorted (x : List String) : List (List String) → List (List String)
  | [] => [x]
  | y :: ys => if pathLe x y then x :: y :: ys else y :: insertSorted x ys

/-- `Vec::sort` on paths (any comparison sort; the result is the sorted
permutation of the input). -/
def sortPaths : List (List String) → List (List String)
  | [] => []
  | x :: xs => insertSorted x (sortPaths xs)

/-- `PasswordStoreInterface::walk_tree`. -/
def walkTree (fs : Fs) (root : List String) : List (List String) :=
  sortPaths ((walkPaths fs root).filter fun e => isGpgFile fs e)

/-- `PasswordStoreInterface::walk_tree_for_subdirectory`. -/
def walkTreeForSubdirectory (fs : Fs) (root : List String) (subdirectory : String) :
    Except RadomskoError (List (List String)) :=
  match pathForImpl fs root subdirectory false with
  | Except.error e => Except.error e
  | Except.ok path =>
    if !(isDirAt fs path) then Except.error RadomskoError.notFound
    else Except.ok (sortPaths ((walkPaths fs path).filter fun e => isGpgFile fs e))

/-- `PasswordStoreInterface::walk_tree_for_search_term`. -/
def walkTreeForSearchTerm (fs : Fs) (root : List String) (searchTerm : String) :
    List (List String) :=
  sortPaths ((walkPaths fs root).filter fun e =>
    isGpgFile fs e && strContains (relToString (symbolicNameFor root e)) searchTerm)

/-- `tree_branch_with_indent` with `colorize = false` (the monochrome
format string `"{}*   {}"` with a four-space indent unit; colorization is
presentation-only and tests compare monochrome output). -/
def treeBranchLine (component : String) (indent : Nat) : String :=
  String.mk ((List.replicate indent "    ".data).flatten ++ "*   ".data ++ component.data)

/-- The trailing loop of `draw_tree_branch`: one line per remaining novel
component, indenting one further level each time. -/
def branchRest : List String → Nat → List String
  | [], _ => []
  | c :: cs, indent => treeBranchLine c (indent + 1) :: branchRest cs (indent + 1)

/-- The seek loop of `draw_tree_branch`: skip the common ancestry of
previous and current, then emit the first novel component at the shared
depth and the remainder below it.  (The Rust code `unwrap`s the first
novel component; with sorted distinct entries it always exists, and the
unreachable exhausted case is modelled as no output.) -/
def branchSeek : List String → List String → Nat → List String
  | p :: ps, c :: cs, indent =>
    if p = c then branchSeek ps cs (indent + 1)
    else treeBranchLine c indent :: branchRest cs indent
  | _, c :: cs, indent => treeBranchLine c indent :: branchRest cs indent
  | _, [], _ => []

/-- `PasswordStoreInterface::draw_tree_branch`. -/
def drawTreeBranch (root : List String) (previous current : List String) : List String :=
  branchSeek (symbolicNameFor root previous) (symbolicNameFor root current) 0

/-- The fold of `draw_tree_impl`: draw each entry against the previous
one, starting from the store root as virtual previous entry. -/
def drawLines (root : List String) : List String → List (List String) → List String
  | _, [] => []
  | prev, cur :: rest => drawTreeBranch root prev cur ++ drawLines root cur rest

/-- `PasswordStoreInterface::draw_tree_impl`. -/
def drawTreeImpl (root : List String) (tree : List (List String)) : String :=
  if tree = [] then "" else joinNl (drawLines root root tree)

/-- Outcome of `draw_tree`: the `assert!` panic, a rendered tree, or a
returned error. -/
inductive DrawOutcome
  | panicked
  | ok (rendered : String)
  | err (e : RadomskoError)
deriving DecidableEq, Repr

/-- `PasswordStoreInterface::draw_tree`, with the
`assert!(!(!subdirectory.is_empty() && !search_term.is_empty()))` modelled
as the `panicked` outcome. -/
def drawTree (fs : Fs) (root : List String) (subdirectory searchTerm : String) : DrawOutcome :=
  if subdirectory ≠ "" ∧ searchTerm ≠ "" then DrawOutcome.panicked
  else if subdirectory ≠ "" then
    match walkTreeForSubdirectory fs root subdirectory with
    | Except.error e => DrawOutcome.err e
    | Except.ok tree => DrawOutcome.ok (drawTreeImpl root tree)
  else if searchTerm ≠ "" then
    DrawOutcome.ok (drawTreeImpl root (walkTreeForSearchTerm fs root searchTerm))
  else DrawOutcome.ok (drawTreeImpl root (walkTree fs root))

/-- `std::fs::metadata` of a staging directory, as the cleartext holder
consumes it: directory bit and permission mode. -/
structure DirMetadata where
  isDirectory : Bool
  mode : Nat
deriving DecidableEq, Repr

/-- Lookup in the modelled directory-metadata environment. -/
def lookupMeta (env : List (String × DirMetadata)) (p : String) : Option DirMetadata :=
  (env.find? (fun e => decide (e.1 = p))).map (fun e => e.2)

/-- The `IoError` produced by `std::fs::metadata` on a missing path. -/
def ioErrorNoEnt : RadomskoError := RadomskoError.ioError canonFailMessage

/-- `CleartextHolderInterface::new`: default the root to
`XDG_RUNTIME_DIR` when unconfigured (a missing variable is `NotFound`),
require the root to be a directory with permission bits exactly `0o700`. -/
def cleartextHolderNew (env : List (String × DirMetadata)) (xdgRuntimeDir : Option String)
    (configuredRoot : String) : Except RadomskoError String :=
  match (if configuredRoot = "" then
           match xdgRuntimeDir with
           | none => Except.error RadomskoError.notFound
           | some d => Except.ok d
         else Except.ok configuredRoot : Except RadomskoError String) with
  | Except.error e => Except.error e
  | Except.ok root =>
    match lookupMeta env root with
    | none => Except.error ioErrorNoEnt
    | some md =>
      if !md.isDirectory then Except.error RadomskoError.notFound
      else if md.mode &&& 0o777 ≠ 0o700 then Except.error RadomskoError.badPermissions
      else Except.ok root

/-- The root resolved by `PasswordStoreInterface::new`: the configured
path, or `<home>/.password-store` when the configured path is empty. -/
def resolvedStoreRoot (home : List String) (configuredRoot : String) : List Component :=
  if configuredRoot = "" then home.map Component.normal ++ [Component.normal ".password-store"]
  else parseRel configuredRoot

/-- `PasswordStoreInterface::new`: `std::fs::metadata(root)?` (an
`IoError` when the root cannot be resolved) followed by an `is_dir` check
(`NotFound` otherwise).  The interface stores the raw, un-canonicalized
root. -/
def passwordStoreNew (fs : Fs) (home : List String) (configuredRoot : String) :
    Except RadomskoError (List Component) :=
  let root := resolvedStoreRoot home configuredRoot
  match canonicalize fs root with
  | none => Except.error ioErrorNoEnt
  | some c =>
    if nodeAt fs c = some FsNode.dir then Except.ok root
    else Except.error RadomskoError.notFound

/-- Outcome of `CommandRunner::show`: print a rendered tree, reach the
external decryption call on a resolved entry path, or fail. -/
inductive ShowOutcome
  | tree (rendered : String)
  | decrypt (path : List String)
  | err (e : RadomskoError)
deriving DecidableEq, Repr

/-- `CommandRunner::show` up to the external decryption call: first try a
subdirectory tree render; only when that fails, resolve the target with
`path_for`, require a regular file, and attempt decryption.  (The
`panicked` arm is unreachable here since the search term is empty.) -/
def showCommand (fs : Fs) (root : List String) (target : String) : ShowOutcome :=
  match drawTree fs root target "" with
  | DrawOutcome.ok rendered => ShowOutcome.tree rendered
  | DrawOutcome.panicked => ShowOutcome.err (RadomskoError.ioError "panicked")
  | DrawOutcome.err _ =>
    match pathFor fs root target with
    | Except.error e => ShowOutcome.err e
    | Except.ok p =>
      if isFile fs p then ShowOutcome.decrypt p
      else ShowOutcome.err RadomskoError.notFound

/-! Concrete stores used by witnesses and counterexamples. -/

/-- A store whose configured root `/r` is a symbolic link to the real
directory `/d` holding the entry `x.gpg`. -/
def fsLinkedRoot : Fs := ⟨[
  (["d"], FsNode.dir),
  (["d", "x.gpg"], FsNode.file),
  (["r"], FsNode.symlink true [Component.normal "d"])
]⟩

/-- A store with subdirectories `g/k` and an entry `h.gpg`, for
`..`-transiting lookups. -/
def fsTransit : Fs := ⟨[
  (["r"], FsNode.dir),
  (["r", "g"], FsNode.dir),
  (["r", "g", "k"], FsNode.dir),
  (["r", "h.gpg"], FsNode.file)
]⟩

/-- A store with a subdirectory `c` and an entry `a.gpg`. -/
def fsDotDot : Fs := ⟨[
  (["r"], FsNode.dir),
  (["r", "c"], FsNode.dir),
  (["r", "a.gpg"], FsNode.file)
]⟩

/-- A store with one nested entry `a/b.gpg`. -/
def fsNested : Fs := ⟨[
  (["r"], FsNode.dir),
  (["r", "a"], FsNode.dir),
  (["r", "a", "b.gpg"], FsNode.file)
]⟩

/-- A store with entries `a/b.gpg`, `a/d.gpg`, `e.gpg`. -/
def fsDraw : Fs := ⟨[
  (["r"], FsNode.dir),
  (["r", "a"], FsNode.dir),
  (["r", "a", "b.gpg"], FsNode.file),
  (["r", "a", "d.gpg"], FsNode.file),
  (["r", "e.gpg"], FsNode.file)
]⟩

/-- A store holding a regular file `xgpg` whose name ends in `gpg` but
not in `.gpg`. -/
def fsBareGpg : Fs := ⟨[
  (["r"], FsNode.dir),
  (["r", "xgpg"], FsNode.file)
]⟩

/-- A store holding the entry `klaus.txt.gpg`. -/
def fsKlaus : Fs := ⟨[
  (["r"], FsNode.dir),
  (["r", "klaus.txt.gpg"], FsNode.file)
]⟩

/-! Helper lemmas. -/

theorem startsWithPath_append : ∀ root t : List String, startsWithPath root (root ++ t) = true := by
  intro root t
  induction root with
  | nil => rfl
  | cons r rs ih => simpa [startsWithPath] using ih

theorem stringEqOfData {s t : String} (h : s.data = t.data) : s = t :=
  congrArg String.mk h

theorem charLtB_conn (a b : Char) (h : a ≠ b) : charLtB a b = true ∨ charLtB b a = true := by
  rcases Nat.lt_trichotomy a.val.toNat b.val.toNat with hlt | heq | hgt
  · exact Or.inl (decide_eq_true hlt)
  · exact absurd (Char.ext (UInt32.ext heq)) h
  · exact Or.inr (decide_eq_true hgt)

theorem charLtB_trans {a b c : Char} (h1 : charLtB a b = true) (h2 : charLtB b c = true) :
    charLtB a c = true :=
  decide_eq_true (Nat.lt_trans (of_decide_eq_true h1) (of_decide_eq_true h2))

theorem charLtB_asymm {a b : Char} (h1 : charLtB a b = true) (h2 : charLtB b a = true) : False :=
  absurd (Nat.lt_trans (of_decide_eq_true h1) (of_decide_eq_true h2)) (Nat.lt_irrefl _)

theorem strLtB_conn : ∀ as bs : List Char, as ≠ bs → strLtB as bs = true ∨ strLtB bs as = true := by
  intro as
  induction as with
  | nil =>
    intro bs h
    cases bs with
    | nil => exact absurd rfl h
    | cons b bs => exact Or.inl rfl
  | cons a as ih =>
    intro bs h
    cases bs with
    | nil => exact Or.inr rfl
    | cons b bs =>
      by_cases hab : a = b
      · subst hab
        have hne : as ≠ bs := fun he => h (by rw [he])
        rcases ih bs hne with h1 | h1
        · exact Or.inl (by simpa [strLtB] using h1)
        · exact Or.inr (by simpa [strLtB] using h1)
      · rcases charLtB_conn a b hab with h1 | h1
        · exact Or.inl (by simp [strLtB, hab, h1])
        · exact Or.inr (by simp [strLtB, Ne.symm hab, h1])

theorem strLtB_irrefl : ∀ as : List Char, strLtB as as = false := by
  intro as
  induction as with
  | nil => rfl
  | cons a as ih => simpa [strLtB] using ih

theorem strLtB_trans :
    ∀ as bs cs : List Char, strLtB as bs = true → strLtB bs cs = true → strLtB as cs = true := by
  intro as
  induction as with
  | nil =>
    intro bs cs h1 h2
    cases bs with
    | nil => simp [strLtB] at h1
    | cons b bs =>
      cases cs with
      | nil => simp [strLtB] at h2
      | cons c cs => rfl
  | cons a as ih =>
    intro bs cs h1 h2
    cases bs with
    | nil => simp [strLtB] at h1
    | cons b bs =>
      cases cs with
      | nil => simp [strLtB] at h2
      | cons c cs =>
        by_cases hab : a = b <;> by_cases hbc : b = c
        · subst hab; subst hbc
          simp only [strLtB, if_pos rfl] at h1 h2 ⊢
          exact ih bs cs h1 h2
        · subst hab
          simp only [strLtB, if_pos rfl] at h1
          simp only [strLtB, if_neg hbc] at h2 ⊢
          exact h2
        · subst hbc
          simp only [strLtB, if_neg hab] at h1 ⊢
          exact h1
        · simp only [strLtB, if_neg hab] at h1
          simp only [strLtB, if_neg hbc] at h2
          by_cases hac : a = c
          · subst hac; exact (charLtB_asymm h1 h2).elim
          · simp only [strLtB, if_neg hac]
            exact charLtB_trans h1 h2

theorem pathLe_total : ∀ a b : List String, (pathLe a b || pathLe b a) = true := by
  intro a
  induction a with
  | nil => intro b; simp [pathLe]
  | cons x xs ih =>
    intro b
    cases b with
    | nil => simp [pathLe]
    | cons y ys =>
      by_cases h : x = y
      · subst h; simpa [pathLe] using ih ys
      · have hd : x.data ≠ y.data := fun he => h (stringEqOfData he)
        rcases strLtB_conn x.data y.data hd with h1 | h1
        · simp [pathLe, h, h1]
        · simp [pathLe, h, Ne.symm h, h1]

theorem pathLe_trans :
    ∀ a b c : List String, pathLe a b = true → pathLe b c = true → pathLe a c = true := by
  intro a
  induction a with
  | nil => intro b c _ _; simp [pathLe]
  | cons x xs ih =>
    intro b c hab hbc
    cases b with
    | nil => simp [pathLe] at hab
    | cons y ys =>
      cases c with
      | nil => simp [pathLe] at hbc
      | cons z zs =>
        by_cases hxy : x = y <;> by_cases hyz : y = z
        · subst hxy; subst hyz
          simp only [pathLe, if_pos rfl] at hab hbc ⊢
          exact ih ys zs hab hbc
        · subst hxy
          simp only [pathLe, if_pos rfl] at hab
          simp only [pathLe, if_neg hyz] at hbc ⊢
          exact hbc
        · subst hyz
          simp only [pathLe, if_neg hxy] at hab ⊢
          exact hab
        · simp only [pathLe, if_neg hxy] at hab
          simp only [pathLe, if_neg hyz] at hbc
          by_cases hxz : x = z
          · subst hxz
            have hcontra := strLtB_trans x.data y.data x.data hab hbc
            rw [strLtB_irrefl x.data] at hcontra
            exact absurd hcontra (by simp)
          · simp only [pathLe, if_neg hxz]
            exact strLtB_trans x.data y.data z.data hab hbc

theorem mem_insertSorted (x a : List String) :
    ∀ l, (a ∈ insertSorted x l ↔ a = x ∨ a ∈ l) := by
  intro l
  induction l with
  | nil => simp [insertSorted]
  | cons y ys ih =>
    simp only [insertSorted]
    by_cases h : pathLe x y = true
    · rw [if_pos h]
      simp [List.mem_cons]
    · rw [if_neg h]
      simp only [List.mem_cons, ih]
      tauto

theorem mem_sortPaths (a : List String) : ∀ l, (a ∈ sortPaths l ↔ a ∈ l) := by
  intro l
  induction l with
  | nil => simp [sortPaths]
  | cons x xs ih =>
    simp only [sortPaths, mem_insertSorted, ih, List.mem_cons]

theorem pairwise_insertSorted (x : List String) :
    ∀ l, List.Pairwise (fun a b => pathLe a b = true) l →
      List.Pairwise (fun a b => pathLe a b = true) (insertSorted x l) := by
  intro l
  induction l with
  | nil => intro _; simp [insertSorted]
  | cons y ys ih =>
    intro hp
    rcases List.pairwise_cons.mp hp with ⟨hy, hys⟩
    simp only [insertSorted]
    by_cases h : pathLe x y = true
    · simp only [h, if_true]
      refine List.pairwise_cons.mpr ⟨?_, hp⟩
      intro b hb
      rcases List.mem_cons.mp hb with rfl | hb
      · exact h
      · exact pathLe_trans _ _ _ h (hy b hb)
    · simp only [h, if_false]
      refine List.pairwise_cons.mpr ⟨?_, ih hys⟩
      intro b hb
      rcases (mem_insertSorted x b ys).mp hb with hbx | hb
      · subst hbx
        have htot := pathLe_total b y
        rw [Bool.or_eq_true] at htot
        rcases htot with htot | htot
        · exact absurd htot h
        · exact htot
      · exact hy b hb

theorem pairwise_sortPaths :
    ∀ l, List.Pairwise (fun a b => pathLe a b = true) (sortPaths l) := by
  intro l
  induction l with
  | nil => simp [sortPaths]
  | cons x xs ih => exact pairwise_insertSorted x _ ih

theorem addGpg_concat (xs : List Component) (s : String) :
    addGpg (xs ++ [Component.normal s]) = xs ++ [Component.normal (gpgAdd s)] := by
  simp [addGpg, List.getLast?_concat, List.dropLast_concat]

theorem setExtensionPath_concat (xs : List String) (s e : String) :
    setExtensionPath (xs ++ [s]) e = xs ++ [rustSetExtension s e] := by
  simp [setExtensionPath, List.getLast?_concat, List.dropLast_concat]

theorem symbolicNameFor_append (root q : List String) :
    symbolicNameFor root (root ++ q) = setExtensionPath q "" := by
  simp [symbolicNameFor, List.drop_left]

theorem symbolicNameFor_self (root : List String) :
    symbolicNameFor root root = [] := by
  simpa using symbolicNameFor_append root []

theorem lastDotSplit_concat_gpg :
    ∀ cs : List Char, lastDotSplit (cs ++ '.' :: ['g', 'p', 'g']) = some (cs, ['g', 'p', 'g']) := by
  intro cs
  induction cs with
  | nil => rfl
  | cons c cs ih => simp [lastDotSplit, ih]

theorem stringDataAppendGpg (s : String) :
    (s ++ ".gpg").data = s.data ++ '.' :: ['g', 'p', 'g'] := by
  rw [String.data_append]

theorem dataNeNil {s : String} (h : s ≠ "") : s.data ≠ [] := by
  intro hd
  exact h (stringEqOfData (by rw [hd]))

theorem removeGpgRoundTrip (s : String) (hs : s ≠ "") :
    rustSetExtension (s ++ ".gpg") "" = s := by
  obtain ⟨c, cs, hcs⟩ : ∃ c cs, s.data = c :: cs := by
    cases hd : s.data with
    | nil => exact absurd hd (dataNeNil hs)
    | cons c cs => exact ⟨c, cs, rfl⟩
  unfold rustSetExtension
  rw [if_pos rfl]
  unfold rustStemChars
  rw [stringDataAppendGpg, hcs, List.cons_append]
  simp only [lastDotSplit_concat_gpg]
  rw [← hcs]

theorem gpgAdd_eq (s : String) : gpgAdd s = s ++ ".gpg" := by
  unfold gpgAdd
  by_cases h : (rustExtension s).isSome = true
  · rw [if_pos h]
    apply stringEqOfData
    simp [gpgExtension, String.data_append]
  · rw [if_neg h]
    have hnone : rustExtension s = none := by
      cases hre : rustExtension s
      · rfl
      · rw [hre] at h; simp at h
    have hstem : rustStemChars s = s.data := by
      unfold rustStemChars
      cases hd : s.data with
      | nil => rfl
      | cons c cs =>
        unfold rustExtension at hnone
        rw [hd] at hnone
        cases hl : lastDotSplit cs with
        | none => simp [hl]
        | some pr => simp [hl] at hnone
    unfold rustSetExtension
    rw [if_neg (by decide), hstem]
    apply stringEqOfData
    simp [gpgExtension, String.data_append]

/-! Claim C10: the mutual-exclusivity assertion of `draw_tree`. -/

/-- C10: `draw_tree` enforces the mutual exclusivity of its two selectors
with a runtime assertion rather than a typed error: whenever at most one
of `subdirectory` and `search_term` is nonempty, the assertion holds and
the call cannot panic on it; a call with both nonempty panics instead of
returning an error value. -/
theorem draw_tree_assert_mutual_exclusion (fs : Fs) (root : List String)
    (subdirectory searchTerm : String) :
    ((subdirectory = "" ∨ searchTerm = "") →
        drawTree fs root subdirectory searchTerm ≠ DrawOutcome.panicked) ∧
    (subdirectory ≠ "" → searchTerm ≠ "" →
        drawTree fs root subdirectory searchTerm = DrawOutcome.panicked) := by
  constructor
  · intro h
    rcases h with h | h
    · subst h
      by_cases ht : searchTerm = ""
      · subst ht; simp [drawTree]
      · simp [drawTree, ht]
    · subst h
      by_cases hs : subdirectory = ""
      · subst hs; simp [drawTree]
      · have heq : drawTree fs root subdirectory "" =
            (match walkTreeForSubdirectory fs root subdirectory with
             | Except.error e => DrawOutcome.err e
             | Except.ok tree => DrawOutcome.ok (drawTreeImpl root tree)) := by
          simp [drawTree, hs]
        rw [heq]
        cases walkTreeForSubdirectory fs root subdirectory <;> simp
  · intro hs ht
    simp [drawTree, hs, ht]

theorem draw_tree_assert_mutual_exclusion_witness :
    drawTree fsDraw ["r"] "a" "" ≠ DrawOutcome.panicked ∧
    drawTree fsDraw ["r"] "a" "x" = DrawOutcome.panicked :=
  ⟨(draw_tree_assert_mutual_exclusion fsDraw ["r"] "a" "").1 (Or.inr rfl),
   (draw_tree_assert_mutual_exclusion fsDraw ["r"] "a" "x").2 (by decide) (by decide)⟩

/-! Claim C9: `show` prefers a successful tree render. -/

/-- C9: in `CommandRunner::show`, if the subdirectory tree render of the
target succeeds, `show` prints the rendered tree and returns success
without decrypting; only when the tree render fails does it resolve the
target via `path_for` and attempt decryption, surfacing the resolution
error to the caller. -/
theorem show_prefers_tree_render (fs : Fs) (root : List String) (target : String) :
    (∀ rendered, drawTree fs root target "" = DrawOutcome.ok rendered →
        showCommand fs root target = ShowOutcome.tree rendered) ∧
    (∀ e, drawTree fs root target "" = DrawOutcome.err e →
        (∀ e2, pathFor fs root target = Except.error e2 →
            showCommand fs root target = ShowOutcome.err e2) ∧
        (∀ p, pathFor fs root target = Except.ok p →
            showCommand fs root target =
              if isFile fs p then ShowOutcome.decrypt p
              else ShowOutcome.err RadomskoError.notFound)) := by
  constructor
  · intro rendered h; simp [showCommand, h]
  · intro e h
    constructor
    · intro e2 h2; simp [showCommand, h, h2]
    · intro p hp; simp [showCommand, h, hp]

theorem show_prefers_tree_render_witness :
    showCommand fsDraw ["r"] "a" = ShowOutcome.tree "*   a\n    *   b\n    *   d" :=
  (show_prefers_tree_render fsDraw ["r"] "a").1 _ (by decide)

/-! Claim C4: the staging-directory constructor checks. -/

/-- C4 counterexample: for a nonexistent staging path the constructor
returns the stringified I/O error (as its own unit test
`require_directory` asserts), not `NotFound` as the claim states. -/
theorem cleartext_holder_missing_dir_counterexample :
    cleartextHolderNew [] none "p" = Except.error ioErrorNoEnt ∧
    cleartextHolderNew [] none "p" ≠ Except.error RadomskoError.notFound := by decide

/-- C4 (amended): `CleartextHolderInterface::new(configured_root)` fails
with a generic I/O error when the resolved directory does not exist; it
fails with `NotFound` when the path exists but is not a directory; it
fails with `BadPermissions` exactly when the directory exists but its
permission bits are not exactly 0700 (so mode 0740 fails with the
permission error); and it succeeds for an existing directory with mode
exactly 0700. -/
theorem cleartext_holder_new_permission_check (env : List (String × DirMetadata))
    (xdg : Option String) (configuredRoot : String) (hcr : configuredRoot ≠ "") :
    (lookupMeta env configuredRoot = none →
        cleartextHolderNew env xdg configuredRoot = Except.error ioErrorNoEnt) ∧
    (∀ md, lookupMeta env configuredRoot = some md →
      (md.isDirectory = false →
          cleartextHolderNew env xdg configuredRoot = Except.error RadomskoError.notFound) ∧
      (md.isDirectory = true → md.mode &&& 0o777 ≠ 0o700 →
          cleartextHolderNew env xdg configuredRoot = Except.error RadomskoError.badPermissions) ∧
      (md.isDirectory = true → md.mode &&& 0o777 = 0o700 →
          cleartextHolderNew env xdg configuredRoot = Except.ok configuredRoot)) := by
  constructor
  · intro h; simp [cleartextHolderNew, hcr, h]
  · intro md h
    refine ⟨?_, ?_, ?_⟩
    · intro hd; simp [cleartextHolderNew, hcr, h, hd]
    · intro hd hm; simp [cleartextHolderNew, hcr, h, hd, hm]
    · intro hd hm; simp [cleartextHolderNew, hcr, h, hd, hm]

theorem cleartext_holder_new_permission_check_witness :
    cleartextHolderNew [("p", ⟨true, 0o700⟩)] none "p" = Except.ok "p" ∧
    cleartextHolderNew [("q", ⟨true, 0o740⟩)] none "q" =
      Except.error RadomskoError.badPermissions :=
  ⟨((cleartext_holder_new_permission_check [("p", ⟨true, 0o700⟩)] none "p"
      (by decide)).2 ⟨true, 0o700⟩ (by decide)).2.2 rfl (by decide),
   ((cleartext_holder_new_permission_check [("q", ⟨true, 0o740⟩)] none "q"
      (by decide)).2 ⟨true, 0o740⟩ (by decide)).2.1 rfl (by decide)⟩

/-! Claim C8: the password-store constructor root check. -/

/-- C8 counterexample: for a nonexistent configured root the constructor
returns the stringified I/O error (as its own unit test
`password_store_interface_requires_existing_root` asserts), not
`NotFound` as the claim states. -/
theorem password_store_missing_root_counterexample :
    passwordStoreNew (Fs.mk []) [] "/x" = Except.error ioErrorNoEnt ∧
    passwordStoreNew (Fs.mk []) [] "/x" ≠ Except.error RadomskoError.notFound := by decide

/-- C8 (amended): `PasswordStoreInterface::new(configured_root)` resolves
the root to the configured path (or `<home>/.password-store` when the
configured path is empty); it fails with a generic I/O error when that
root cannot be resolved (does not exist), fails with `NotFound` when it
resolves but is not a directory, and succeeds otherwise. -/
theorem password_store_new_root_check (fs : Fs) (home : List String) (configuredRoot : String) :
    (canonicalize fs (resolvedStoreRoot home configuredRoot) = none →
        passwordStoreNew fs home configuredRoot = Except.error ioErrorNoEnt) ∧
    (∀ c, canonicalize fs (resolvedStoreRoot home configuredRoot) = some c →
      (nodeAt fs c ≠ some FsNode.dir →
          passwordStoreNew fs home configuredRoot = Except.error RadomskoError.notFound) ∧
      (nodeAt fs c = some FsNode.dir →
          passwordStoreNew fs home configuredRoot =
            Except.ok (resolvedStoreRoot home configuredRoot))) := by
  constructor
  · intro h; simp [passwordStoreNew, h]
  · intro c h
    constructor
    · intro hd; simp [passwordStoreNew, h, hd]
    · intro hd; simp [passwordStoreNew, h, hd]

theorem password_store_new_root_check_witness :
    passwordStoreNew fsDotDot [] "/r" = Except.ok [Component.normal "r"] ∧
    passwordStoreNew fsDotDot [] "/r/a.gpg" = Except.error RadomskoError.notFound :=
  ⟨((password_store_new_root_check fsDotDot [] "/r").2 ["r"] (by decide)).2 (by decide),
   ((password_store_new_root_check fsDotDot [] "/r/a.gpg").2 ["r", "a.gpg"]
      (by decide)).1 (by decide)⟩

/-! Claim C5: dots in a symbolic name survive the extension marker. -/

/-- C5: for a store rooted at `R`, `path_for` applied to a symbolic name
whose final component contains a literal dot appends the extension marker
as a suffix to the full file name instead of replacing the perceived
extension: `path_for("klaus.txt")` yields `R/klaus.txt.gpg` (here stated
for any filesystem in which that entry exists and resolves to itself). -/
theorem path_for_keeps_dotted_names (fs : Fs) (root : List String)
    (h : canonicalize fs ((root ++ ["klaus.txt.gpg"]).map Component.normal)
           = some (root ++ ["klaus.txt.gpg"])) :
    pathFor fs root "klaus.txt" = Except.ok (root ++ ["klaus.txt.gpg"]) := by
  have hparse : parseRel "klaus.txt" = [Component.normal "klaus.txt"] := by decide
  have hmap : (root ++ ["klaus.txt.gpg"]).map Component.normal
      = root.map Component.normal ++ [Component.normal "klaus.txt.gpg"] := by
    simp
  have hg : gpgAdd "klaus.txt" = "klaus.txt.gpg" := by decide
  unfold pathFor pathForImpl
  rw [if_pos rfl, hparse, addGpg_concat, hg, ← hmap, h]
  simp [startsWithPath_append root ["klaus.txt.gpg"]]

theorem path_for_keeps_dotted_names_witness :
    pathFor fsKlaus ["r"] "klaus.txt" = Except.ok ["r", "klaus.txt.gpg"] :=
  path_for_keeps_dotted_names fsKlaus ["r"] (by decide)

/-! Claim C6: the deduplicated indented tree rendering. -/

/-- C6: for the sorted tree listing whose symbolic names are
`a/b`, `a/d`, `e`, the renderer produces exactly the four lines
`*   a`, `    *   b`, `    *   d`, `*   e` — the bullet marker `*`
followed by three spaces, an indentation unit of four spaces per
shared-ancestor level, shared prefixes of consecutive entries printed
exactly once, and one line per component beyond the common prefix with
the previous cursor. -/
theorem draw_tree_rendering (root : List String) :
    drawTreeImpl root
        [root ++ ["a", "b.gpg"], root ++ ["a", "d.gpg"], root ++ ["e.gpg"]] =
      "*   a\n    *   b\n    *   d\n*   e" := by
  unfold drawTreeImpl
  rw [if_neg (by simp)]
  simp only [drawLines, drawTreeBranch, symbolicNameFor_append, symbolicNameFor_self]
  decide

/-! Claim C2: the round trip between `path_for` and `symbolic_name_for`. -/

/-- C2 counterexample: the symbolic name `c/../a` has no path-escaping
prefix (its composed path canonicalizes to `r/a.gpg`, an existing entry
under the store root, so `path_for` succeeds on it), yet
`symbolic_name_for(path_for("c/../a"))` is `a`, not `c/../a`. -/
theorem symbolic_name_roundtrip_counterexample :
    pathFor fsDotDot ["r"] "c/../a" = Except.ok ["r", "a.gpg"] ∧
    (symbolicNameFor ["r"] ["r", "a.gpg"]).map Component.normal ≠ parseRel "c/../a" := by
  decide

/-- C2 (amended): for every valid symbolic name `n` whose components are
plain names (no `..` segments) and whose composed entry path
canonicalizes to itself (the entry exists and no symlink or `..`
indirection renames it), the round trip holds:
`symbolic_name_for(path_for(n)) == n` as paths. -/
theorem symbolic_name_roundtrip (fs : Fs) (root ns : List String) (s n : String)
    (h1 : parseRel n = ns.map Component.normal ++ [Component.normal s])
    (h2 : s ≠ "")
    (h3 : canonicalize fs ((root ++ ns ++ [gpgAdd s]).map Component.normal)
            = some (root ++ ns ++ [gpgAdd s])) :
    pathFor fs root n = Except.ok (root ++ ns ++ [gpgAdd s]) ∧
    (symbolicNameFor root (root ++ ns ++ [gpgAdd s])).map Component.normal = parseRel n := by
  have hcand : addGpg (root.map Component.normal ++ parseRel n)
      = (root ++ ns ++ [gpgAdd s]).map Component.normal := by
    rw [h1, ← List.append_assoc, addGpg_concat]
    simp
  constructor
  · unfold pathFor pathForImpl
    rw [if_pos rfl, hcand, h3]
    simp [startsWithPath_append root (ns ++ [gpgAdd s])]
  · have hname : symbolicNameFor root (root ++ ns ++ [gpgAdd s]) = ns ++ [s] := by
      rw [List.append_assoc, symbolicNameFor_append, setExtensionPath_concat,
        gpgAdd_eq s, removeGpgRoundTrip s h2]
    rw [hname, h1]
    simp

theorem symbolic_name_roundtrip_witness :
    pathFor fsNested ["r"] "a/b" = Except.ok ["r", "a", "b.gpg"] ∧
    (symbolicNameFor ["r"] ["r", "a", "b.gpg"]).map Component.normal = parseRel "a/b" :=
  symbolic_name_roundtrip fsNested ["r"] ["a"] "b" "a/b" (by decide) (by decide) (by decide)

/-! Claim C7: the full walk enumeration. -/

/-- C7 counterexample: the store holds a regular file `xgpg` whose name
does not end in the extension marker `.gpg`, yet `walk_tree` includes it,
because `is_gpg_file` tests `ends_with("gpg")` with no dot. -/
theorem walk_tree_extension_counterexample :
    wfCheck fsBareGpg = true ∧
    ["r", "xgpg"] ∈ walkTree fsBareGpg ["r"] ∧
    strEndsWith (pathToString ["r", "xgpg"]) ".gpg" = false := by
  refine ⟨by decide, by decide, by decide⟩

/-- C7 (amended): on a well-formed store, the full walk returns exactly
the recorded regular files under the store root whose path string ends in
`gpg` (the extension marker constant, which carries no dot), and the
returned sequence is sorted ascending in the lexicographic order of
absolute paths. -/
theorem walk_tree_enumeration (fs : Fs) (root : List String) (_hw : wfCheck fs = true) :
    (∀ p, p ∈ walkTree fs root ↔
        (p ∈ fs.nodes.map Prod.fst ∧ startsWithPath root p = true ∧
         isFile fs p = true ∧ strEndsWith (pathToString p) gpgExtension = true)) ∧
    List.Pairwise (fun a b => pathLe a b = true) (walkTree fs root) := by
  constructor
  · intro p
    unfold walkTree
    rw [mem_sortPaths]
    unfold walkPaths
    rw [List.mem_filter, List.mem_filter]
    constructor
    · rintro ⟨⟨hmem, hsw⟩, hgpg⟩
      rw [isGpgFile, Bool.and_eq_true] at hgpg
      exact ⟨hmem, hsw, hgpg.1, hgpg.2⟩
    · rintro ⟨hmem, hsw, hf, hg⟩
      refine ⟨⟨hmem, hsw⟩, ?_⟩
      rw [isGpgFile, Bool.and_eq_true]
      exact ⟨hf, hg⟩
  · exact pairwise_sortPaths _

theorem walk_tree_enumeration_witness :
    ["r", "e.gpg"] ∈ walkTree fsDraw ["r"] :=
  ((walk_tree_enumeration fsDraw ["r"] (by decide)).1 _).mpr
    ⟨by decide, by decide, by decide, by decide⟩

/-! Claim C1: the containment check of `path_for`. -/

theorem nodeAt_mem_keys {fs : Fs} {p : List String} (h : nodeAt fs p ≠ none) (hp : p ≠ []) :
    p ∈ fs.nodes.map Prod.fst := by
  unfold nodeAt at h
  rw [if_neg hp] at h
  cases hf : fs.nodes.find? (fun e => decide (e.1 = p)) with
  | none => rw [hf] at h; simp at h
  | some e =>
    have hmem := List.mem_of_find?_eq_some hf
    have hpred := List.find?_some hf
    simp only [decide_eq_true_eq] at hpred
    rw [← hpred]
    exact List.mem_map_of_mem Prod.fst hmem

theorem wf_prefix_dir {fs : Fs} (hw : wfCheck fs = true) {p : List String}
    (hmem : p ∈ fs.nodes.map Prod.fst) {i : Nat} (hi : i < p.length) :
    nodeAt fs (p.take i) = some FsNode.dir := by
  unfold wfCheck at hw
  rw [List.all_eq_true] at hw
  have h1 := hw p hmem
  rw [List.all_eq_true] at h1
  exact of_decide_eq_true (h1 i (List.mem_range.mpr hi))

theorem nodeAt_dropLast {fs : Fs} (hw : wfCheck fs = true) {p : List String}
    (h : nodeAt fs p ≠ none) : nodeAt fs p.dropLast ≠ none := by
  by_cases hp : p = []
  · subst hp; simp [nodeAt]
  · have hmem := nodeAt_mem_keys h hp
    have hlen : p.length - 1 < p.length := by
      cases p with
      | nil => exact absurd rfl hp
      | cons a as => simp
    rw [List.dropLast_eq_take, wf_prefix_dir hw hmem hlen]
    simp

theorem resolve_exists (fs : Fs) (hw : wfCheck fs = true) :
    ∀ fuel cur rest out, resolve fs fuel cur rest = some out →
      nodeAt fs cur ≠ none → nodeAt fs out ≠ none := by
  intro fuel
  induction fuel with
  | zero => intro cur rest out h _; simp [resolve] at h
  | succ m ih =>
    intro cur rest out h hcur
    cases rest with
    | nil =>
      simp only [resolve, Option.some.injEq] at h
      rw [← h]
      exact hcur
    | cons comp rest2 =>
      cases comp with
      | parentDir =>
        simp only [resolve] at h
        exact ih _ _ _ h (nodeAt_dropLast hw hcur)
      | normal nm =>
        simp only [resolve] at h
        cases hn : nodeAt fs (cur ++ [nm]) with
        | none => rw [hn] at h; simp at h
        | some node =>
          rw [hn] at h
          cases node with
          | dir => exact ih _ _ _ h (by rw [hn]; simp)
          | file =>
            cases rest2 with
            | nil =>
              simp only [Option.some.injEq] at h
              rw [← h, hn]
              simp
            | cons c2 r2 => simp at h
          | symlink abs target =>
            have h2 : (match resolve fs m (if abs then [] else cur) target with
                | none => none
                | some q => resolve fs m q rest2) = some out := h
            cases hq : resolve fs m (if abs then [] else cur) target with
            | none => rw [hq] at h2; simp at h2
            | some q =>
              rw [hq] at h2
              have hq2 : nodeAt fs q ≠ none := by
                refine ih _ _ _ hq ?_
                cases abs with
                | true => simp [nodeAt]
                | false => simpa using hcur
              exact ih _ _ _ h2 hq2

theorem canonicalize_exists {fs : Fs} (hw : wfCheck fs = true) {p : List Component}
    {c : List String} (h : canonicalize fs p = some c) : nodeAt fs c ≠ none :=
  resolve_exists fs hw resolveFuel [] p c h (by simp [nodeAt])

/-- C1 counterexample: over the store constructed at configured root
`/r`, where `/r` is a symbolic link to the directory `/d` holding the
entry `x.gpg`, the name `x` composes to a candidate that canonicalizes to
the existing path `/d/x.gpg` lying inside the canonical store root `/d` —
yet `path_for` fails with a filesystem error, because the code compares
the canonical result against the configured root `/r` verbatim, not
against the canonical store root. -/
theorem path_for_canonical_root_counterexample :
    passwordStoreNew fsLinkedRoot [] "/r" = Except.ok [Component.normal "r"] ∧
    canonicalize fsLinkedRoot [Component.normal "r"] = some ["d"] ∧
    canonicalize fsLinkedRoot
        (addGpg (["r"].map Component.normal ++ parseRel "x")) = some ["d", "x.gpg"] ∧
    startsWithPath ["d"] ["d", "x.gpg"] = true ∧
    nodeAt fsLinkedRoot ["d", "x.gpg"] = some FsNode.file ∧
    pathFor fsLinkedRoot ["r"] "x" =
      Except.error (RadomskoError.ioError "bad path: /d/x.gpg") := by
  decide

/-- C1 (amended): on a well-formed store, for every root `R` and symbolic
name `s`: if the path obtained by joining `R` with `s` (plus the
extension marker) canonicalizes, the canonical result exists on disk, and
`path_for(s)` succeeds returning that canonical path exactly when the
canonical result starts with the configured root `R` compared verbatim
(component-wise) — in particular for `..` segments that transit through
subdirectories and return inside the root; if the canonical result does
not start with the configured root (a `..` or symlink escape), or the
candidate path does not exist, `path_for(s)` fails with a filesystem
error. -/
theorem path_for_containment (fs : Fs) (root : List String) (name : String)
    (hw : wfCheck fs = true) :
    (∀ c, canonicalize fs (addGpg (root.map Component.normal ++ parseRel name)) = some c →
        nodeAt fs c ≠ none ∧
        (startsWithPath root c = true → pathFor fs root name = Except.ok c) ∧
        (startsWithPath root c = false →
            pathFor fs root name =
              Except.error (RadomskoError.ioError ("bad path: " ++ pathToString c)))) ∧
    (canonicalize fs (addGpg (root.map Component.normal ++ parseRel name)) = none →
        pathFor fs root name = Except.error (RadomskoError.ioError canonFailMessage)) := by
  constructor
  · intro c h
    refine ⟨canonicalize_exists hw h, ?_, ?_⟩
    · intro hs
      unfold pathFor pathForImpl
      rw [if_pos rfl, h]
      simp [hs]
    · intro hs
      unfold pathFor pathForImpl
      rw [if_pos rfl, h]
      simp [hs]
  · intro h
    unfold pathFor pathForImpl
    rw [if_pos rfl, h]

theorem path_for_containment_witness :
    pathFor fsTransit ["r"] "g/k/../../h" = Except.ok ["r", "h.gpg"] ∧
    nodeAt fsTransit ["r", "h.gpg"] ≠ none ∧
    pathFor fsTransit ["r"] "../x" = Except.error (RadomskoError.ioError canonFailMessage) := by
  have h1 := path_for_containment fsTransit ["r"] "g/k/../../h" (by decide)
  have h2 := path_for_containment fsTransit ["r"] "../x" (by decide)
  exact ⟨(h1.1 ["r", "h.gpg"] (by decide)).2.1 (by decide),
    (h1.1 ["r", "h.gpg"] (by decide)).1, h2.2 (by decide)⟩

end Radomsko
